import Mathlib

/-!
Shallow embedding of `src/src/main.rs` (ONIX Governor): a fixed 80×80 lattice of
complex amplitudes (stored flat, length N²), an `inject` operation encoding input
bytes into amplitudes, a `step` operation advancing the field one time unit and
recomputing a clamped entropy scalar, and the per-line verdict logic of `main`.
`f64` arithmetic is embedded as exact rational arithmetic; the source computes
`norm().powi(2)`, which is `re² + im²` exactly, so no square root is needed.
-/

namespace Onix

/-- Embeds `num_complex::Complex<f64>`: a complex number as a pair of rationals. -/
structure Cpx where
  re : ℚ
  im : ℚ
deriving DecidableEq

namespace Cpx

@[ext] theorem ext {a b : Cpx} (hre : a.re = b.re) (him : a.im = b.im) : a = b := by
  cases a; cases b; simp_all

instance : Zero Cpx := ⟨⟨0, 0⟩⟩
instance : Add Cpx := ⟨fun a b => ⟨a.re + b.re, a.im + b.im⟩⟩
instance : Sub Cpx := ⟨fun a b => ⟨a.re - b.re, a.im - b.im⟩⟩
instance : Mul Cpx := ⟨fun a b => ⟨a.re * b.re - a.im * b.im, a.re * b.im + a.im * b.re⟩⟩

/-- `Complex::i()`. -/
def I : Cpx := ⟨0, 1⟩

/-- Multiplication of a complex amplitude by an `f64` scalar. -/
def smul (q : ℚ) (c : Cpx) : Cpx := ⟨q * c.re, q * c.im⟩

/-- `norm().powi(2)`: the squared Euclidean norm, exact in real arithmetic. -/
def normSq (c : Cpx) : ℚ := c.re ^ 2 + c.im ^ 2

@[simp] theorem zero_re : (0 : Cpx).re = 0 := rfl
@[simp] theorem zero_im : (0 : Cpx).im = 0 := rfl
@[simp] theorem add_re (a b : Cpx) : (a + b).re = a.re + b.re := rfl
@[simp] theorem add_im (a b : Cpx) : (a + b).im = a.im + b.im := rfl
@[simp] theorem sub_re (a b : Cpx) : (a - b).re = a.re - b.re := rfl
@[simp] theorem sub_im (a b : Cpx) : (a - b).im = a.im - b.im := rfl
@[simp] theorem mul_re (a b : Cpx) : (a * b).re = a.re * b.re - a.im * b.im := rfl
@[simp] theorem mul_im (a b : Cpx) : (a * b).im = a.re * b.im + a.im * b.re := rfl
@[simp] theorem smul_re (q : ℚ) (c : Cpx) : (smul q c).re = q * c.re := rfl
@[simp] theorem smul_im (q : ℚ) (c : Cpx) : (smul q c).im = q * c.im := rfl
@[simp] theorem I_re : I.re = 0 := rfl
@[simp] theorem I_im : I.im = 1 := rfl
@[simp] theorem normSq_zero : normSq 0 = 0 := by simp [normSq]

end Cpx

/-- `const N: usize = 80`. -/
def N : ℕ := 80

/-- `const HALLUCINATION_THRESHOLD: f64 = 0.618`. -/
def HALLUCINATION_THRESHOLD : ℚ := 618 / 1000

/-- `const DT: f64 = 0.108`. -/
def DT : ℚ := 108 / 1000

/-- The damping factor `0.991` applied after each cell update. -/
def damping : ℚ := 991 / 1000

/-- `f64::clamp(x, 0.0, 1.0)`. -/
def clampQ (x : ℚ) : ℚ := max 0 (min x 1)

/-- The `idx` closure of `step`, generalized over the flattened size:
`((i as isize + d).rem_euclid(size)) as usize`. -/
def wrapIdxGen (size : ℕ) (i : ℕ) (d : ℤ) : ℕ :=
  (((i : ℤ) + d) % (size : ℤ)).toNat

/-- The `idx` closure of `step` with `size = (N * N) as isize`. -/
def wrapIdx (i : ℕ) (d : ℤ) : ℕ := wrapIdxGen (N * N) i d

/-- `let up = self.psi[idx(-(N as isize))]`. -/
def upNbr (psi : List Cpx) (i : ℕ) : Cpx := psi.getD (wrapIdx i (-(N : ℤ))) 0

/-- `let down = self.psi[idx(N as isize)]`. -/
def downNbr (psi : List Cpx) (i : ℕ) : Cpx := psi.getD (wrapIdx i (N : ℤ)) 0

/-- `let left = self.psi[idx(-1)]`. -/
def leftNbr (psi : List Cpx) (i : ℕ) : Cpx := psi.getD (wrapIdx i (-1)) 0

/-- `let right = self.psi[idx(1)]`. -/
def rightNbr (psi : List Cpx) (i : ℕ) : Cpx := psi.getD (wrapIdx i 1) 0

/-- `let laplacian = up + down + left + right - 4.0 * self.psi[i]`. -/
def laplacian (psi : List Cpx) (i : ℕ) : Cpx :=
  upNbr psi i + downNbr psi i + leftNbr psi i + rightNbr psi i
    - Cpx.smul 4 (psi.getD i 0)

/-- `let nonlinear = self.psi[i] * (1.0 + 0.618 * mag.powi(2))`
with `mag = self.psi[i].norm()`, so `mag.powi(2)` is the squared norm. -/
def nonlinear (psi : List Cpx) (i : ℕ) : Cpx :=
  Cpx.smul (1 + (618 / 1000) * Cpx.normSq (psi.getD i 0)) (psi.getD i 0)

/-- `(laplacian - nonlinear) * Complex::i() * DT`: the increment added to `next[i]`. -/
def deltaTerm (psi : List Cpx) (i : ℕ) : Cpx :=
  Cpx.smul DT ((laplacian psi i - nonlinear psi i) * Cpx.I)

/-- The value of cell `i` after `next[i] += (laplacian - nonlinear) * i * DT` and
`next[i] *= 0.991`, computed from the field as it stood at the start of the step. -/
def newAmp (psi : List Cpx) (i : ℕ) : Cpx :=
  Cpx.smul damping (psi.getD i 0 + deltaTerm psi i)

/-- One iteration of the `for i in 0..N*N` loop body of `step`: the state is
(`next`, `dissonance`); `next[i]` is read from the cloned buffer (still holding
the start-of-step value, since iteration `i` is the only writer of index `i`),
updated in place, and its post-damping `|im|` is accumulated. -/
def stepBody (psi : List Cpx) (st : List Cpx × ℚ) (i : ℕ) : List Cpx × ℚ :=
  let upd := Cpx.smul damping (st.1.getD i 0 + deltaTerm psi i)
  (st.1.set i upd, st.2 + |upd.im|)

/-- The full loop of `step`: `let mut next = self.psi.clone(); let mut dissonance = 0.0;
for i in 0..N*N { ... }`, returning the final `next` and `dissonance`. -/
def stepLoop (psi : List Cpx) : List Cpx × ℚ :=
  (List.range (N * N)).foldl (stepBody psi) (psi, 0)

/-- `struct ResonantLattice { psi: Vec<Complex<f64>>, entropy: f64 }`. -/
structure ResonantLattice where
  psi : List Cpx
  entropy : ℚ
deriving DecidableEq

/-- `ResonantLattice::new()`: an all-zero field of N² cells, entropy 0. -/
def ResonantLattice.new : ResonantLattice :=
  ⟨List.replicate (N * N) 0, 0⟩

/-- `ResonantLattice::step()`: run the loop, replace the field with `next`, and set
`entropy = (dissonance / (N as f64)).clamp(0.0, 1.0)`. -/
def ResonantLattice.step (l : ResonantLattice) : ResonantLattice :=
  ⟨(stepLoop l.psi).1, clampQ ((stepLoop l.psi).2 / (N : ℚ))⟩

/-- `Complex::new(v, v * 0.61)` with `v = b as f64 / 255.0`. -/
def encodeByte (b : ℕ) : Cpx :=
  ⟨(b : ℚ) / 255, ((b : ℚ) / 255) * (61 / 100)⟩

/-- The injection loop `for (i, &b) in text.as_bytes().iter().enumerate().take(N*N)
{ self.psi[i] = ... }`, writing encoded bytes at consecutive indices from `i`. -/
def writeBytes : ℕ → List ℕ → List Cpx → List Cpx
  | _, [], ps => ps
  | i, b :: bs, ps => writeBytes (i + 1) bs (ps.set i (encodeByte b))

/-- `ResonantLattice::inject(text)`: `self.psi.fill(0)` (an in-place fill, keeping the
length), then the enumerate-take loop; `entropy` is not touched. -/
def ResonantLattice.inject (l : ResonantLattice) (text : List ℕ) : ResonantLattice :=
  ⟨writeBytes 0 (text.take (N * N)) (l.psi.map fun _ => (0 : Cpx)), l.entropy⟩

/-- `K` sequential `step()` calls: `for _ in 0..K { l.step(); }`. -/
def stepN (k : ℕ) (l : ResonantLattice) : ResonantLattice :=
  ResonantLattice.step^[k] l

/-- The physics section of `main`'s per-line block: `l.inject(text)` followed by
`for _ in 0..70 { l.step(); }`. -/
def runPhysics (l : ResonantLattice) (text : List ℕ) : ResonantLattice :=
  stepN 70 (l.inject text)

/-- The two verdict tags of the log channel. -/
inductive Verdict
  | VERIFIED
  | BLOCKED
deriving DecidableEq

/-- The per-line decision of `main` for a trimmed, non-empty line: evolve the lattice,
then `if entropy > HALLUCINATION_THRESHOLD` emit BLOCKED and nothing on stdout,
else emit VERIFIED and print the line. Returns (new lattice, verdict, stdout output). -/
def processLine (l : ResonantLattice) (text : List ℕ) :
    ResonantLattice × Verdict × Option (List ℕ) :=
  let l2 := runPhysics l text
  if l2.entropy > HALLUCINATION_THRESHOLD then (l2, Verdict.BLOCKED, none)
  else (l2, Verdict.VERIFIED, some text)

/-- The specification's reference field update (spec §4.1 `step()`): every next-value
is computed from the old field before any cell is replaced — a fully parallel map of
`newAmp` over all N² indices. `step` is compared against this definition. -/
def specParallelField (psi : List Cpx) : List Cpx :=
  (List.range (N * N)).map (newAmp psi)

/-! ### Generic list helpers -/

theorem getD_set_self {α : Type _} (l : List α) {i : ℕ} (h : i < l.length) (v d : α) :
    (l.set i v).getD i d = v := by
  simp [List.getD_eq_getElem?_getD, List.getElem?_set_self h]

theorem getD_set_ne {α : Type _} (l : List α) {i j : ℕ} (h : i ≠ j) (v d : α) :
    (l.set i v).getD j d = l.getD j d := by
  simp [List.getD_eq_getElem?_getD, List.getElem?_set_ne h]

theorem getD_replicate_zero (n j : ℕ) : (List.replicate n (0 : Cpx)).getD j 0 = 0 := by
  rcases lt_or_le j n with hj | hj
  · simp [List.getD_eq_getElem?_getD, List.getElem?_replicate_of_lt hj]
  · simp [List.getD_eq_default, hj]

/-- Two lists of equal length whose `getD` values agree at every index are equal. -/
theorem list_ext_getD {α : Type _} (d : α) (l1 l2 : List α)
    (hlen : l1.length = l2.length)
    (h : ∀ j, j < l1.length → l1.getD j d = l2.getD j d) : l1 = l2 := by
  apply List.ext_getElem hlen
  intro i hi1 hi2
  have hi := h i hi1
  rwa [List.getD_eq_getElem _ d hi1, List.getD_eq_getElem _ d hi2] at hi

/-! ### The step loop: invariant and characterization -/

/-- Invariant of the `for i in 0..N*N` loop of `step` after `k` iterations:
cells below `k` hold their new amplitudes, cells at or above `k` are untouched,
and `dissonance` is the partial sum of post-damping `|im|` values. -/
theorem stepLoop_invariant (psi : List Cpx) (h : psi.length = N * N) :
    ∀ k, k ≤ N * N →
      (((List.range k).foldl (stepBody psi) (psi, 0)).1.length = N * N)
      ∧ (∀ j, j < k →
          ((List.range k).foldl (stepBody psi) (psi, 0)).1.getD j 0 = newAmp psi j)
      ∧ (∀ j, k ≤ j →
          ((List.range k).foldl (stepBody psi) (psi, 0)).1.getD j 0 = psi.getD j 0)
      ∧ ((List.range k).foldl (stepBody psi) (psi, 0)).2
          = ∑ j in Finset.range k, |(newAmp psi j).im| := by
  intro k
  induction k with
  | zero =>
    intro _
    exact ⟨h, fun j hj => absurd hj (Nat.not_lt_zero j), fun j _ => rfl, by simp⟩
  | succ k ih =>
    intro hk
    obtain ⟨ihlen, ihlo, ihhi, ihsum⟩ := ih (Nat.le_of_succ_le hk)
    set st := (List.range k).foldl (stepBody psi) (psi, 0) with hst
    have hfold : (List.range (k + 1)).foldl (stepBody psi) (psi, 0)
        = stepBody psi st k := by
      rw [List.range_succ, List.foldl_append, List.foldl_cons, List.foldl_nil]
    have hread : st.1.getD k 0 = psi.getD k 0 := ihhi k le_rfl
    have hupd : Cpx.smul damping (st.1.getD k 0 + deltaTerm psi k) = newAmp psi k := by
      rw [hread]; rfl
    have hklt : k < st.1.length := by rw [ihlen]; exact hk
    refine ⟨?_, ?_, ?_, ?_⟩
    · rw [hfold]; simpa [stepBody] using ihlen
    · intro j hj
      rw [hfold]
      rcases Nat.lt_succ_iff_lt_or_eq.mp hj with hj' | rfl
      · have hne : k ≠ j := (Nat.ne_of_lt hj').symm
        simpa [stepBody, List.getElem?_set_ne hne] using ihlo j hj'
      · simpa [stepBody, List.getElem?_set_self hklt] using hupd
    · intro j hj
      have hne : k ≠ j := Nat.ne_of_lt (Nat.lt_of_succ_le hj)
      rw [hfold]
      simpa [stepBody, List.getElem?_set_ne hne] using ihhi j (Nat.le_of_succ_le hj)
    · rw [hfold]
      simp only [stepBody, hupd, Finset.sum_range_succ, ihsum]

/-- Folding the loop body over any index list keeps the buffer length. -/
theorem foldl_stepBody_length (psi : List Cpx) (l : List ℕ) :
    ∀ st : List Cpx × ℚ, (l.foldl (stepBody psi) st).1.length = st.1.length := by
  induction l with
  | nil => intro st; rfl
  | cons a m ih =>
    intro st
    rw [List.foldl_cons, ih]
    simp [stepBody]

/-- The `next` buffer of `stepLoop` keeps its length, with no length hypothesis. -/
theorem stepLoop_fst_length (psi : List Cpx) : (stepLoop psi).1.length = psi.length :=
  foldl_stepBody_length psi _ _

/-! ### Characterization of `step` -/

theorem ResonantLattice.eq_of (a b : ResonantLattice)
    (h1 : a.psi = b.psi) (h2 : a.entropy = b.entropy) : a = b := by
  cases a; cases b; simp_all

theorem new_psi : ResonantLattice.new.psi = List.replicate (N * N) 0 := rfl

theorem new_psi_length : ResonantLattice.new.psi.length = N * N := by
  rw [new_psi, List.length_replicate]

theorem new_entropy : ResonantLattice.new.entropy = 0 := rfl

theorem step_psi (l : ResonantLattice) : l.step.psi = (stepLoop l.psi).1 := by
  simp only [ResonantLattice.step]

theorem step_entropy (l : ResonantLattice) :
    l.step.entropy = clampQ ((stepLoop l.psi).2 / (N : ℚ)) := by
  simp only [ResonantLattice.step]

theorem step_psi_length (l : ResonantLattice) : l.step.psi.length = l.psi.length := by
  rw [step_psi]; exact stepLoop_fst_length l.psi

theorem step_psi_getD (l : ResonantLattice) (h : l.psi.length = N * N)
    {j : ℕ} (hj : j < N * N) : l.step.psi.getD j 0 = newAmp l.psi j := by
  rw [step_psi]
  exact (stepLoop_invariant l.psi h (N * N) le_rfl).2.1 j hj

theorem step_entropy_eq (l : ResonantLattice) (h : l.psi.length = N * N) :
    l.step.entropy
      = clampQ ((∑ j in Finset.range (N * N), |(newAmp l.psi j).im|) / (N : ℚ)) := by
  have hsum := (stepLoop_invariant l.psi h (N * N) le_rfl).2.2.2
  rw [step_entropy]
  unfold stepLoop
  rw [hsum]

theorem specParallelField_length (psi : List Cpx) :
    (specParallelField psi).length = N * N := by
  unfold specParallelField
  rw [List.length_map, List.length_range]

theorem specParallelField_getElem (psi : List Cpx) (n : ℕ)
    (h : n < (specParallelField psi).length) :
    (specParallelField psi)[n] = newAmp psi n := by
  unfold specParallelField at h ⊢
  simp only [List.getElem_map, List.getElem_range]

theorem specParallelField_getD (psi : List Cpx) {n : ℕ} (hn : n < N * N) :
    (specParallelField psi).getD n 0 = newAmp psi n := by
  have h2 : n < (specParallelField psi).length := by
    rw [specParallelField_length]; exact hn
  rw [List.getD_eq_getElem _ 0 h2, specParallelField_getElem]

theorem step_psi_eq_spec (l : ResonantLattice) (h : l.psi.length = N * N) :
    l.step.psi = specParallelField l.psi := by
  apply list_ext_getD (0 : Cpx)
  · rw [step_psi_length, h, specParallelField_length]
  · intro j hj
    have hjN : j < N * N := by rw [step_psi_length, h] at hj; exact hj
    rw [step_psi_getD l h hjN, specParallelField_getD l.psi hjN]

/-! ### The all-zero field is a fixed point -/

theorem newAmp_zero_field (i : ℕ) : newAmp (List.replicate (N * N) 0) i = 0 := by
  unfold newAmp deltaTerm laplacian nonlinear upNbr downNbr leftNbr rightNbr
  simp only [getD_replicate_zero]
  ext <;> simp

theorem step_of_zero_psi (l : ResonantLattice) (h : l.psi = List.replicate (N * N) 0) :
    l.step = ResonantLattice.new := by
  have hlen : l.psi.length = N * N := by rw [h, List.length_replicate]
  apply ResonantLattice.eq_of
  · rw [step_psi_eq_spec l hlen, h, new_psi]
    apply list_ext_getD (0 : Cpx)
    · rw [specParallelField_length, List.length_replicate]
    · intro j hj
      have hjN : j < N * N := by rwa [specParallelField_length] at hj
      rw [specParallelField_getD _ hjN, newAmp_zero_field, getD_replicate_zero]
  · rw [step_entropy_eq l hlen, h, new_entropy]
    have hz : ∀ j ∈ Finset.range (N * N),
        |(newAmp (List.replicate (N * N) (0 : Cpx)) j).im| = 0 := by
      intro j _; rw [newAmp_zero_field]; simp
    rw [Finset.sum_congr rfl hz]
    simp [clampQ]

theorem step_new_fixed : ResonantLattice.new.step = ResonantLattice.new :=
  step_of_zero_psi _ new_psi

theorem stepN_zero (l : ResonantLattice) : stepN 0 l = l := rfl

theorem stepN_succ (k : ℕ) (l : ResonantLattice) : stepN (k + 1) l = stepN k l.step := by
  show ResonantLattice.step^[k + 1] l = ResonantLattice.step^[k] l.step
  rw [Function.iterate_succ_apply]

theorem stepN_new_fixed (k : ℕ) : stepN k ResonantLattice.new = ResonantLattice.new := by
  induction k with
  | zero => rfl
  | succ k ih => rw [stepN_succ, step_new_fixed, ih]

theorem stepN_of_zero_psi (l : ResonantLattice) (h : l.psi = List.replicate (N * N) 0)
    {k : ℕ} (hk : 1 ≤ k) : stepN k l = ResonantLattice.new := by
  obtain ⟨k', rfl⟩ := Nat.exists_eq_add_of_le hk
  rw [Nat.add_comm, stepN_succ, step_of_zero_psi l h, stepN_new_fixed]

/-! ### Characterization of `inject` -/

theorem writeBytes_length (bs : List ℕ) : ∀ (i : ℕ) (ps : List Cpx),
    (writeBytes i bs ps).length = ps.length := by
  induction bs with
  | nil => intro i ps; rfl
  | cons b bs ih =>
    intro i ps
    simp only [writeBytes]
    rw [ih, List.length_set]

/-- The injection loop writes `encodeByte bs[j-i]` at each index `j` in
`[i, i + bs.length)` and leaves every other cell alone, provided all its
writes land inside the buffer. -/
theorem writeBytes_getD (bs : List ℕ) : ∀ (i : ℕ) (ps : List Cpx),
    i + bs.length ≤ ps.length → ∀ j,
      (writeBytes i bs ps).getD j 0
        = if i ≤ j ∧ j < i + bs.length then encodeByte (bs.getD (j - i) 0)
          else ps.getD j 0 := by
  induction bs with
  | nil =>
    intro i ps _ j
    simp only [writeBytes, List.length_nil]
    rw [if_neg (by omega)]
  | cons b bs ih =>
    intro i ps hb j
    have hilt : i < ps.length := by
      simp only [List.length_cons] at hb; omega
    simp only [writeBytes]
    rw [ih (i + 1) _ (by rw [List.length_set]; simp only [List.length_cons] at hb; omega) j]
    by_cases h1 : i + 1 ≤ j ∧ j < i + 1 + bs.length
    · rw [if_pos h1, if_pos (by simp only [List.length_cons]; omega)]
      congr 1
      have hji : j - i = (j - (i + 1)) + 1 := by omega
      rw [hji, List.getD_cons_succ]
    · rw [if_neg h1]
      by_cases h2 : j = i
      · subst h2
        rw [getD_set_self ps hilt]
        rw [if_pos (by simp only [List.length_cons]; omega)]
        simp
      · rw [getD_set_ne ps (fun hij => h2 hij.symm)]
        rw [if_neg (by simp only [List.length_cons]; omega)]

theorem getD_take_of_lt {α : Type _} (l : List α) (d : α) {n j : ℕ} (hj : j < n) :
    (l.take n).getD j d = l.getD j d := by
  rw [List.getD_eq_getElem?_getD, List.getD_eq_getElem?_getD, List.getElem?_take_of_lt hj]

theorem inject_psi_length (l : ResonantLattice) (text : List ℕ) :
    (l.inject text).psi.length = l.psi.length := by
  simp only [ResonantLattice.inject]
  rw [writeBytes_length, List.length_map]

theorem inject_entropy (l : ResonantLattice) (text : List ℕ) :
    (l.inject text).entropy = l.entropy := by
  simp only [ResonantLattice.inject]

/-- The field after `inject`: cell `j` holds the encoded byte `j` when
`j < min (len text) N²`, and zero otherwise. -/
theorem inject_psi_getD (l : ResonantLattice) (text : List ℕ)
    (h : l.psi.length = N * N) (j : ℕ) :
    (l.inject text).psi.getD j 0
      = if j < min text.length (N * N) then encodeByte (text.getD j 0) else 0 := by
  simp only [ResonantLattice.inject]
  have hlen0 : (l.psi.map fun _ => (0 : Cpx)).length = N * N := by
    rw [List.length_map, h]
  have hb : 0 + (text.take (N * N)).length ≤ (l.psi.map fun _ => (0 : Cpx)).length := by
    rw [hlen0, List.length_take]; omega
  rw [writeBytes_getD _ 0 _ hb j]
  simp only [Nat.zero_add, List.length_take, Nat.sub_zero, Nat.zero_le, true_and]
  by_cases hj : j < min (N * N) text.length
  · rw [if_pos hj, if_pos (by omega)]
    congr 1
    exact getD_take_of_lt text 0 (by omega)
  · rw [if_neg hj, if_neg (by omega), List.map_const', getD_replicate_zero]

theorem inject_nil_psi (l : ResonantLattice) (h : l.psi.length = N * N) :
    (l.inject []).psi = List.replicate (N * N) 0 := by
  simp only [ResonantLattice.inject, List.take_nil, writeBytes]
  rw [List.map_const', h]

/-- `inject` only reads the first N² bytes: a longer text injects identically
to its truncation. -/
theorem inject_take_eq (l : ResonantLattice) (text : List ℕ) :
    l.inject (text.take (N * N)) = l.inject text := by
  simp only [ResonantLattice.inject]
  rw [List.take_take, Nat.min_self]

/-! ### Wraparound index arithmetic -/

theorem wrapIdxGen_lt (size : ℕ) (hs : 0 < size) (i : ℕ) (d : ℤ) :
    wrapIdxGen size i d < size := by
  unfold wrapIdxGen
  have hs' : (0 : ℤ) < (size : ℤ) := by exact_mod_cast hs
  have h0 : 0 ≤ ((i : ℤ) + d) % (size : ℤ) := Int.emod_nonneg _ (by omega)
  have h1 : ((i : ℤ) + d) % (size : ℤ) < (size : ℤ) := Int.emod_lt_of_pos _ hs'
  omega

theorem wrapIdx_lt (i : ℕ) (d : ℤ) : wrapIdx i d < N * N :=
  wrapIdxGen_lt (N * N) (by norm_num [N]) i d

/-- Up-neighbor of cell 0: offset `−n` wraps to `n² − n` for every `n ≥ 1`. -/
theorem wrapIdxGen_up_of_zero (n : ℕ) (hn : 1 ≤ n) :
    wrapIdxGen (n * n) 0 (-(n : ℤ)) = n * n - n := by
  unfold wrapIdxGen
  have hle : n ≤ n * n := by nlinarith
  set m := n * n with hm
  have hemod : ((0 : ℕ) : ℤ) + -(n : ℤ) = ((m : ℤ) - n) + (-1) * (m : ℤ) := by
    push_cast; ring
  rw [hemod, Int.add_mul_emod_self]
  rw [Int.emod_eq_of_lt (by omega) (by omega)]
  omega

/-- Right-neighbor of the last cell: offset `+1` wraps to 0 for every `n ≥ 1`. -/
theorem wrapIdxGen_right_of_last (n : ℕ) (hn : 1 ≤ n) :
    wrapIdxGen (n * n) (n * n - 1) 1 = 0 := by
  unfold wrapIdxGen
  have hle : 1 ≤ n * n := by nlinarith
  set m := n * n with hm
  have h1 : ((m - 1 : ℕ) : ℤ) + 1 = (m : ℤ) := by omega
  rw [h1, Int.emod_self]
  rfl

theorem getElem?_isSome_of_lt {α : Type _} (l : List α) {j : ℕ} (hj : j < l.length) :
    (l[j]?).isSome = true := by
  rw [List.getElem?_eq_getElem hj]
  rfl

/-! ### Reachable states and the clamp bounds -/

theorem clampQ_nonneg (x : ℚ) : 0 ≤ clampQ x := by
  unfold clampQ
  exact le_max_left _ _

theorem clampQ_le_one (x : ℚ) : clampQ x ≤ 1 := by
  unfold clampQ
  exact max_le zero_le_one (min_le_right x 1)

/-- All lattice states reachable from `ResonantLattice::new()` by any sequence of
`inject` and `step` calls. -/
inductive Reachable : ResonantLattice → Prop
  | new : Reachable ResonantLattice.new
  | inject (l : ResonantLattice) (text : List ℕ) :
      Reachable l → Reachable (l.inject text)
  | step (l : ResonantLattice) : Reachable l → Reachable l.step

theorem reachable_invariant (l : ResonantLattice) (h : Reachable l) :
    l.psi.length = N * N ∧ 0 ≤ l.entropy ∧ l.entropy ≤ 1 := by
  induction h with
  | new =>
    refine ⟨new_psi_length, ?_, ?_⟩
    · rw [new_entropy]
    · rw [new_entropy]; exact zero_le_one
  | inject l text _ ih =>
    refine ⟨?_, ?_, ?_⟩
    · rw [inject_psi_length, ih.1]
    · rw [inject_entropy]; exact ih.2.1
    · rw [inject_entropy]; exact ih.2.2
  | step l _ ih =>
    refine ⟨?_, ?_, ?_⟩
    · rw [step_psi_length, ih.1]
    · rw [step_entropy]; exact clampQ_nonneg _
    · rw [step_entropy]; exact clampQ_le_one _

/-! ### The per-line verdict -/

theorem processLine_of_gt (l : ResonantLattice) (text : List ℕ)
    (h : (runPhysics l text).entropy > HALLUCINATION_THRESHOLD) :
    processLine l text = (runPhysics l text, Verdict.BLOCKED, none) := by
  simp only [processLine]
  rw [if_pos h]

theorem processLine_of_le (l : ResonantLattice) (text : List ℕ)
    (h : (runPhysics l text).entropy ≤ HALLUCINATION_THRESHOLD) :
    processLine l text = (runPhysics l text, Verdict.VERIFIED, some text) := by
  simp only [processLine]
  rw [if_neg (not_lt.mpr h)]

/-! ### A uniform field, for separating the two entropy normalizations -/

theorem getD_replicate_of_lt {α : Type _} (c d : α) {n j : ℕ} (hj : j < n) :
    (List.replicate n c).getD j d = c := by
  rw [List.getD_eq_getElem _ _ (by simpa using hj), List.getElem_replicate]

/-- A concrete field: every one of the N² cells holds `0 + (1/100)i`. -/
def uniformField : List Cpx := List.replicate (N * N) ⟨0, 1 / 100⟩

/-- The lattice whose field is `uniformField`. -/
def uniformLat : ResonantLattice := ⟨uniformField, 0⟩

theorem uniformField_length : uniformField.length = N * N := by
  unfold uniformField
  rw [List.length_replicate]

theorem uniformLat_psi : uniformLat.psi = uniformField := rfl

/-- On the uniform field the per-cell update leaves imaginary part `0.991/100`:
the laplacian vanishes, and the nonlinear term is purely imaginary, so the
rotated increment is purely real. -/
theorem newAmp_uniformField_im (i : ℕ) (hi : i < N * N) :
    (newAmp uniformField i).im = 991 / 100000 := by
  unfold newAmp deltaTerm laplacian nonlinear upNbr downNbr leftNbr rightNbr uniformField
  rw [getD_replicate_of_lt _ _ (wrapIdx_lt i _), getD_replicate_of_lt _ _ (wrapIdx_lt i _),
    getD_replicate_of_lt _ _ (wrapIdx_lt i _), getD_replicate_of_lt _ _ (wrapIdx_lt i _),
    getD_replicate_of_lt _ _ hi]
  simp only [Cpx.smul_im, Cpx.add_im, Cpx.sub_im, Cpx.mul_im, Cpx.smul_re, Cpx.add_re,
    Cpx.sub_re, Cpx.mul_re, Cpx.I_re, Cpx.I_im, Cpx.normSq]
  norm_num [damping, DT]

theorem sum_uniformField_im :
    ∑ j in Finset.range (N * N), |(newAmp uniformField j).im|
      = ((N * N : ℕ) : ℚ) * (991 / 100000) := by
  have h1 : ∀ j ∈ Finset.range (N * N),
      |(newAmp uniformField j).im| = 991 / 100000 := by
    intro j hj
    rw [newAmp_uniformField_im j (Finset.mem_range.mp hj)]
    norm_num
  rw [Finset.sum_congr rfl h1, Finset.sum_const, Finset.card_range, nsmul_eq_mul]

/-! ### The claims -/

/-- C1: a single `step()` call accumulates the absolute value of each cell's new
(post-damping) imaginary part into a running total over all N² cells and then sets
entropy to that total divided by N, clamped into [0,1]. -/
theorem claim_C1 (l : ResonantLattice) (h : l.psi.length = N * N) :
    l.step.entropy
      = clampQ ((∑ j in Finset.range (N * N), |(newAmp l.psi j).im|) / (N : ℚ)) :=
  step_entropy_eq l h

theorem claim_C1_witness :
    ResonantLattice.new.psi.length = N * N
    ∧ ResonantLattice.new.step.entropy
        = clampQ ((∑ j in Finset.range (N * N),
            |(newAmp ResonantLattice.new.psi j).im|) / (N : ℚ)) :=
  ⟨new_psi_length, claim_C1 ResonantLattice.new new_psi_length⟩

/-- C2: `step()` is a fully synchronous (parallel) update: the replaced field equals
the reference definition where every next-value is computed from the field as it
stood at the start of the step. -/
theorem claim_C2 (l : ResonantLattice) (h : l.psi.length = N * N) :
    l.step.psi = specParallelField l.psi :=
  step_psi_eq_spec l h

theorem claim_C2_witness :
    ResonantLattice.new.psi.length = N * N
    ∧ ResonantLattice.new.step.psi = specParallelField ResonantLattice.new.psi :=
  ⟨new_psi_length, claim_C2 ResonantLattice.new new_psi_length⟩

/-- C3: the four neighbors of cell `i` sit at flattened indices `i−N`, `i+N`, `i−1`,
`i+1`, each reduced modulo N² with Euclidean (non-negative) remainder; for every
`n ≥ 1` the up-neighbor of index 0 is `n²−n` and the right-neighbor of `n²−1` is 0. -/
theorem claim_C3 :
    (∀ (i : ℕ) (d : ℤ), wrapIdx i d = (((i : ℤ) + d) % ((N * N : ℕ) : ℤ)).toNat)
    ∧ (∀ (psi : List Cpx) (i : ℕ),
        upNbr psi i = psi.getD (wrapIdx i (-(N : ℤ))) 0
        ∧ downNbr psi i = psi.getD (wrapIdx i (N : ℤ)) 0
        ∧ leftNbr psi i = psi.getD (wrapIdx i (-1)) 0
        ∧ rightNbr psi i = psi.getD (wrapIdx i 1) 0)
    ∧ (∀ n : ℕ, 1 ≤ n →
        wrapIdxGen (n * n) 0 (-(n : ℤ)) = n * n - n
        ∧ wrapIdxGen (n * n) (n * n - 1) 1 = 0) :=
  ⟨fun _ _ => rfl,
   fun _ _ => ⟨rfl, rfl, rfl, rfl⟩,
   fun n hn => ⟨wrapIdxGen_up_of_zero n hn, wrapIdxGen_right_of_last n hn⟩⟩

theorem claim_C3_witness :
    1 ≤ N
    ∧ wrapIdxGen (N * N) 0 (-(N : ℤ)) = N * N - N
    ∧ wrapIdxGen (N * N) (N * N - 1) 1 = 0 :=
  ⟨by norm_num [N],
   (claim_C3.2.2 N (by norm_num [N])).1,
   (claim_C3.2.2 N (by norm_num [N])).2⟩

/-- C4: `inject(text)` zeroes every cell, then sets cell `i` to
`(byte/255, 0.61 × byte/255)` for `i < min (len text) N²`, and never touches the
cached entropy scalar. -/
theorem claim_C4 (l : ResonantLattice) (text : List ℕ) (h : l.psi.length = N * N) :
    (∀ j, (l.inject text).psi.getD j 0
        = if j < min text.length (N * N) then encodeByte (text.getD j 0) else 0)
    ∧ (∀ b : ℕ, encodeByte b = ⟨(b : ℚ) / 255, (61 / 100) * ((b : ℚ) / 255)⟩)
    ∧ (l.inject text).entropy = l.entropy :=
  ⟨inject_psi_getD l text h,
   fun b => by unfold encodeByte; ext <;> simp <;> ring,
   inject_entropy l text⟩

theorem claim_C4_witness :
    ResonantLattice.new.psi.length = N * N
    ∧ (ResonantLattice.new.inject [255]).psi.getD 0 0
        = (if 0 < min ([255] : List ℕ).length (N * N)
            then encodeByte (([255] : List ℕ).getD 0 0) else 0)
    ∧ (ResonantLattice.new.inject [255]).entropy = ResonantLattice.new.entropy :=
  ⟨new_psi_length,
   (claim_C4 ResonantLattice.new [255] new_psi_length).1 0,
   (claim_C4 ResonantLattice.new [255] new_psi_length).2.2⟩

/-- C5: a processed non-blank line is BLOCKED exactly when the post-evolution entropy
is strictly above the 0.618 threshold, in which case nothing is written to stdout;
at or below the threshold (including exact equality) it is VERIFIED and the line is
written to stdout. -/
theorem claim_C5 (l : ResonantLattice) (text : List ℕ) :
    HALLUCINATION_THRESHOLD = 618 / 1000
    ∧ ((processLine l text).2.1 = Verdict.BLOCKED
        ↔ (runPhysics l text).entropy > HALLUCINATION_THRESHOLD)
    ∧ ((runPhysics l text).entropy > HALLUCINATION_THRESHOLD
        → (processLine l text).2.2 = none)
    ∧ ((runPhysics l text).entropy ≤ HALLUCINATION_THRESHOLD
        → (processLine l text).2.1 = Verdict.VERIFIED
          ∧ (processLine l text).2.2 = some text) := by
  refine ⟨rfl, ?_, ?_, ?_⟩
  · constructor
    · intro hb
      by_contra hle
      rw [processLine_of_le l text (not_lt.mp hle)] at hb
      exact Verdict.noConfusion hb
    · intro hgt
      rw [processLine_of_gt l text hgt]
  · intro hgt
    rw [processLine_of_gt l text hgt]
  · intro hle
    rw [processLine_of_le l text hle]
    exact ⟨rfl, rfl⟩

theorem claim_C5_witness :
    (runPhysics ResonantLattice.new []).entropy ≤ HALLUCINATION_THRESHOLD
    ∧ (processLine ResonantLattice.new []).2.1 = Verdict.VERIFIED
    ∧ (processLine ResonantLattice.new []).2.2 = some ([] : List ℕ) := by
  have hrun : runPhysics ResonantLattice.new [] = ResonantLattice.new :=
    stepN_of_zero_psi _ (inject_nil_psi _ new_psi_length) (by norm_num)
  have hle : (runPhysics ResonantLattice.new []).entropy ≤ HALLUCINATION_THRESHOLD := by
    rw [hrun, new_entropy]
    norm_num [HALLUCINATION_THRESHOLD]
  exact ⟨hle, (claim_C5 ResonantLattice.new []).2.2.2 hle⟩

/-- C6: injecting the empty string yields the all-zero field, which is a fixed point
of `step()`: after any `K ≥ 1` steps every cell is still zero and the entropy is
exactly 0, so the line is VERIFIED. -/
theorem claim_C6 (l : ResonantLattice) (h : l.psi.length = N * N)
    {K : ℕ} (hK : 1 ≤ K) :
    (l.inject []).psi = List.replicate (N * N) 0
    ∧ stepN K (l.inject []) = ResonantLattice.new
    ∧ (stepN K (l.inject [])).entropy = 0
    ∧ (processLine l []).2.1 = Verdict.VERIFIED := by
  have hpsi := inject_nil_psi l h
  have hfix : stepN K (l.inject []) = ResonantLattice.new := stepN_of_zero_psi _ hpsi hK
  refine ⟨hpsi, hfix, ?_, ?_⟩
  · rw [hfix, new_entropy]
  · have hrun : runPhysics l [] = ResonantLattice.new :=
      stepN_of_zero_psi _ hpsi (by norm_num)
    have hle : (runPhysics l []).entropy ≤ HALLUCINATION_THRESHOLD := by
      rw [hrun, new_entropy]
      norm_num [HALLUCINATION_THRESHOLD]
    rw [processLine_of_le l [] hle]

theorem claim_C6_witness :
    ResonantLattice.new.psi.length = N * N
    ∧ (1 : ℕ) ≤ 1
    ∧ stepN 1 (ResonantLattice.new.inject []) = ResonantLattice.new
    ∧ (stepN 1 (ResonantLattice.new.inject [])).entropy = 0 :=
  ⟨new_psi_length, le_rfl,
   (claim_C6 ResonantLattice.new new_psi_length le_rfl).2.1,
   (claim_C6 ResonantLattice.new new_psi_length le_rfl).2.2.1⟩

/-- C7: a text longer than N² bytes injects exactly like its first N² bytes, so the
entropy after any K steps is identical for the two inputs. -/
theorem claim_C7 (l : ResonantLattice) (text : List ℕ) (h : N * N < text.length) :
    l.inject text = l.inject (text.take (N * N))
    ∧ ∀ K, (stepN K (l.inject text)).entropy
        = (stepN K (l.inject (text.take (N * N)))).entropy := by
  refine ⟨(inject_take_eq l text).symm, fun K => ?_⟩
  rw [inject_take_eq]

theorem claim_C7_witness :
    N * N < (List.replicate (N * N + 1) 65).length
    ∧ ResonantLattice.new.inject (List.replicate (N * N + 1) 65)
        = ResonantLattice.new.inject ((List.replicate (N * N + 1) 65).take (N * N)) := by
  have hlen : N * N < (List.replicate (N * N + 1) 65).length := by
    rw [List.length_replicate]
    omega
  exact ⟨hlen, (claim_C7 ResonantLattice.new _ hlen).1⟩

/-- C8 as stated is false: `step()` divides the accumulated |im| total by N, not by
the number of cells N². At the explicit uniform field `uniformLat` the two
normalizations give 0.7928 versus 0.00991. -/
theorem claim_C8_counterexample :
    uniformLat.step.entropy
      ≠ clampQ ((∑ j in Finset.range (N * N), |(uniformLat.step.psi.getD j 0).im|)
          / ((N * N : ℕ) : ℚ)) := by
  have hlen : uniformLat.psi.length = N * N := uniformField_length
  have hsum : ∑ j in Finset.range (N * N), |(uniformLat.step.psi.getD j 0).im|
      = ((N * N : ℕ) : ℚ) * (991 / 100000) := by
    have hcong : ∀ j ∈ Finset.range (N * N),
        |(uniformLat.step.psi.getD j 0).im| = |(newAmp uniformField j).im| := by
      intro j hj
      rw [step_psi_getD uniformLat hlen (Finset.mem_range.mp hj), uniformLat_psi]
    rw [Finset.sum_congr rfl hcong, sum_uniformField_im]
  have hent : uniformLat.step.entropy = ((N * N : ℕ) : ℚ) * (991 / 100000) / (N : ℚ) := by
    rw [step_entropy_eq uniformLat hlen]
    have : ∑ j in Finset.range (N * N), |(newAmp uniformLat.psi j).im|
        = ((N * N : ℕ) : ℚ) * (991 / 100000) := by
      rw [uniformLat_psi, sum_uniformField_im]
    rw [this]
    norm_num [clampQ, N, min_def, max_def]
  rw [hent, hsum]
  norm_num [clampQ, N, min_def, max_def]

/-- C8 (amended): the entropy produced by `step()` equals the sum of the absolute
imaginary components of the post-evolution field divided by N (the lattice
dimension, not the cell count), clamped to [0,1]. -/
theorem claim_C8_amended (l : ResonantLattice) (h : l.psi.length = N * N) :
    l.step.entropy
      = clampQ ((∑ j in Finset.range (N * N), |(l.step.psi.getD j 0).im|) / (N : ℚ)) := by
  have hsum : ∑ j in Finset.range (N * N), |(l.step.psi.getD j 0).im|
      = ∑ j in Finset.range (N * N), |(newAmp l.psi j).im| := by
    refine Finset.sum_congr rfl ?_
    intro j hj
    rw [step_psi_getD l h (Finset.mem_range.mp hj)]
  rw [step_entropy_eq l h, hsum]

theorem claim_C8_amended_witness :
    ResonantLattice.new.psi.length = N * N
    ∧ ResonantLattice.new.step.entropy
        = clampQ ((∑ j in Finset.range (N * N),
            |(ResonantLattice.new.step.psi.getD j 0).im|) / (N : ℚ)) :=
  ⟨new_psi_length, claim_C8_amended ResonantLattice.new new_psi_length⟩

/-- C9: every reachable lattice state keeps exactly N² cells and an entropy scalar
in [0,1]. -/
theorem claim_C9 (l : ResonantLattice) (h : Reachable l) :
    l.psi.length = N * N ∧ 0 ≤ l.entropy ∧ l.entropy ≤ 1 :=
  reachable_invariant l h

theorem claim_C9_witness :
    Reachable ResonantLattice.new
    ∧ (ResonantLattice.new.psi.length = N * N
        ∧ 0 ≤ ResonantLattice.new.entropy ∧ ResonantLattice.new.entropy ≤ 1) :=
  ⟨Reachable.new, claim_C9 ResonantLattice.new Reachable.new⟩

/-- C10: for every cell index `i < N²` and neighbor offset `d ∈ {−N, N, −1, 1}`, the
wrapped index is strictly below N², so on a field of length N² the Option-returning
lookup always succeeds. -/
theorem claim_C10 (i : ℕ) (hi : i < N * N) (d : ℤ)
    (hd : d = -(N : ℤ) ∨ d = (N : ℤ) ∨ d = -1 ∨ d = 1) :
    wrapIdx i d < N * N
    ∧ ∀ psi : List Cpx, psi.length = N * N → (psi[wrapIdx i d]?).isSome = true := by
  refine ⟨wrapIdx_lt i d, fun psi hp => getElem?_isSome_of_lt psi ?_⟩
  rw [hp]
  exact wrapIdx_lt i d

theorem claim_C10_witness :
    0 < N * N
    ∧ (-(N : ℤ) = -(N : ℤ) ∨ -(N : ℤ) = (N : ℤ) ∨ -(N : ℤ) = -1 ∨ -(N : ℤ) = 1)
    ∧ wrapIdx 0 (-(N : ℤ)) < N * N
    ∧ ((List.replicate (N * N) (0 : Cpx))[wrapIdx 0 (-(N : ℤ))]?).isSome = true := by
  have h0 : (0 : ℕ) < N * N := by norm_num [N]
  refine ⟨h0, Or.inl rfl, (claim_C10 0 h0 _ (Or.inl rfl)).1, ?_⟩
  exact (claim_C10 0 h0 _ (Or.inl rfl)).2 _ (by rw [List.length_replicate])

end Onix
